import Mathlib

/-!
# Verification of the factorflow loopy-BP engine

Shallow embedding, in Lean 4, of the message-passing core of the
factorflow repository (a loopy belief-propagation engine over discrete
factor graphs), together with theorems settling the frozen claims about
its specification.

Embedded components and their sources:

* `MsgsBuf`, `unrollMsgs`, `rollMsgs`, `toDistributeBuf`, `toComputeBuf`
  — `nodesLib/message_chunk.py` (`prepare_msgs_for_distribution`,
  `prepare_msgs_for_computation`, `do_prepare_msgs_for_distribution`);
* `allocMessage`, `chunkFinalizeMsgs` — `MessageChunk.__alloc_message`
  and `MessageChunk.finalize`;
* `rewriteEdgeRow`, `edgeFinalize` — `graph/graph_edge_info.py`
  (`GraphEdgeInfo.finalize`);
* `fillDefaults`, `bpGraphInit` — `BpGraph.__init__`;
* `convAt`, `streakStep`, `streakAfter`, `loopFrom`, `stopIter` —
  `BpGraph.do_message_passing` and `BpGraph.__check_converged`;
* `scatterMulRows`, `scatterAddRows`, `distributeToPeer` —
  `BpGraph._distribute_messages`;
* `catMsgToOutput` and friends — `nodesLib/cat_nodes.py`
  (`CatNodes._do_compute_messages`);
* `createEntries`, `setNumStates`, `addUnaries`, `conditionOn` —
  `nodesLib/message_chunk.py` and `nodesLib/var_nodes.py`;
* `varComputeMessages`, `varOutSpec` — `nodesLib/var_nodes.py`
  (`VarNodes._do_compute_messages`).

Tensors of shape `[D, S, N]` are embedded as functions
`Fin D → Fin S → Fin N → ℚ` (or `→ ℝ` where the code takes `log`/`exp`);
machine floats are idealised as exact rationals/reals.  Fallible code
(Python `assert`s, NumPy index errors) is embedded with `Except String`.
-/

namespace FactorFlow

/-! ## MessageChunk dual layouts (message_chunk.py)

`msgs_in` is logically `[D, S, N]` ("rolled" / compute layout) and is
switched in place to `[D·N, S]` ("unrolled" / distribute layout).
`do_prepare_msgs_for_distribution` swaps axes 1 and 2 (giving `[D, N, S]`)
and reshapes, C-order, to `[D*N, S]`: entry `(d, n, s)` lands in row
`d*N + n`.  `prepare_msgs_for_computation` reshapes `[D*N, S]` to
`[D, N, S]` and swaps axes 1 and 2 back.  The `__is_rolled` flag makes
both conversions no-ops when the buffer is already in the requested
layout; we model the tagged buffer as a sum type. -/

/-- A message buffer together with its layout tag (`__is_rolled`). -/
inductive MsgsBuf (D S N : ℕ) where
  | rolled (f : Fin D → Fin S → Fin N → ℚ)
  | unrolled (g : Fin (D * N) → Fin S → ℚ)

/-- `MessageChunk.do_prepare_msgs_for_distribution`: swap axes 1↔2, then
reshape `[D, N, S]` to `[D*N, S]` in C order; entry `(d, s, n)` goes to
row `d*N + n`, read back here as `(r / N, r % N)`. -/
def unrollMsgs {D S N : ℕ} (f : Fin D → Fin S → Fin N → ℚ) :
    Fin (D * N) → Fin S → ℚ :=
  fun r s =>
    have hDN : 0 < D * N := Nat.lt_of_le_of_lt (Nat.zero_le _) r.isLt
    have hN : 0 < N := Nat.pos_of_ne_zero (by rintro rfl; simp at hDN)
    f ⟨r.val / N, Nat.div_lt_of_lt_mul (Nat.mul_comm D N ▸ r.isLt)⟩ s
      ⟨r.val % N, Nat.mod_lt _ hN⟩

/-- `MessageChunk.prepare_msgs_for_computation`: reshape `[D*N, S]` to
`[max_degree, num_entries, num_states] = [D, N, S]` in C order (row
`d*N + n` holds entry `(d, n)`), then swap axes 1↔2. -/
def rollMsgs {D S N : ℕ} (g : Fin (D * N) → Fin S → ℚ) :
    Fin D → Fin S → Fin N → ℚ :=
  fun d s n =>
    g ⟨d.val * N + n.val, by
      calc d.val * N + n.val < d.val * N + N := Nat.add_lt_add_left n.isLt _
        _ = (d.val + 1) * N := by ring
        _ ≤ D * N := mul_le_mul_right' (Nat.succ_le_of_lt d.isLt) N⟩ s

/-- `MessageChunk.prepare_msgs_for_distribution`: converts to the
distribute layout; a no-op when already unrolled. -/
def toDistributeBuf {D S N : ℕ} : MsgsBuf D S N → MsgsBuf D S N
  | .rolled f => .unrolled (unrollMsgs f)
  | .unrolled g => .unrolled g

/-- `MessageChunk.prepare_msgs_for_computation`: converts to the compute
layout; a no-op when already rolled. -/
def toComputeBuf {D S N : ℕ} : MsgsBuf D S N → MsgsBuf D S N
  | .rolled f => .rolled f
  | .unrolled g => .rolled (rollMsgs g)

theorem rollMsgs_unrollMsgs {D S N : ℕ} (f : Fin D → Fin S → Fin N → ℚ) :
    rollMsgs (unrollMsgs f) = f := by
  funext d s n
  unfold rollMsgs unrollMsgs
  have hN : 0 < N := Nat.lt_of_le_of_lt (Nat.zero_le _) n.isLt
  have h1 : (d.val * N + n.val) / N = d.val := by
    rw [Nat.mul_comm, Nat.mul_add_div hN, Nat.div_eq_of_lt n.isLt, Nat.add_zero]
  have h2 : (d.val * N + n.val) % N = n.val := by
    rw [Nat.mul_comm, Nat.mul_add_mod, Nat.mod_eq_of_lt n.isLt]
  simp only [h1, h2, Fin.eta]

theorem unrollMsgs_rollMsgs {D S N : ℕ} (g : Fin (D * N) → Fin S → ℚ) :
    unrollMsgs (rollMsgs g) = g := by
  funext r s
  unfold unrollMsgs rollMsgs
  have h1 : r.val / N * N + r.val % N = r.val := Nat.div_add_mod' r.val N
  simp only [h1, Fin.eta]

/-- C8: for every finalized MessageChunk, converting to distribute layout
and back to compute layout (and vice versa) restores exactly the original
tensor values and shape, and each conversion is idempotent (converting to
a layout the chunk is already in is a no-op). -/
theorem layout_roundtrip_and_idempotent {D S N : ℕ} :
    (∀ f : Fin D → Fin S → Fin N → ℚ,
       toComputeBuf (toDistributeBuf (MsgsBuf.rolled f)) = MsgsBuf.rolled f ∧
       toComputeBuf (MsgsBuf.rolled f) = MsgsBuf.rolled f) ∧
    (∀ g : Fin (D * N) → Fin S → ℚ,
       toDistributeBuf (toComputeBuf (MsgsBuf.unrolled g)) = MsgsBuf.unrolled g ∧
       toDistributeBuf (MsgsBuf.unrolled g) = MsgsBuf.unrolled g) ∧
    (∀ b : MsgsBuf D S N,
       toDistributeBuf (toDistributeBuf b) = toDistributeBuf b ∧
       toComputeBuf (toComputeBuf b) = toComputeBuf b) := by
  refine ⟨fun f => ⟨?_, rfl⟩, fun g => ⟨?_, rfl⟩, fun b => ⟨?_, ?_⟩⟩
  · simp [toDistributeBuf, toComputeBuf, rollMsgs_unrollMsgs]
  · simp [toDistributeBuf, toComputeBuf, unrollMsgs_rollMsgs]
  · cases b <;> rfl
  · cases b <;> rfl

/-! ## GraphEdgeInfo.finalize (graph/graph_edge_info.py)

`add_edge` appends rows `[c_id, c_slot, o_id, o_slot]` to the buffer for
a chunk pair, counting them in `edge_hash_count`.  `finalize` trims the
buffer to `count` rows and rewrites every row to the two flat offsets
`[c_slot·N₀ + c_id, o_slot·N₁ + o_id]`.  Rows are embedded as `List ℤ`
(the buffer is an integer array); the column reads `tmp[:, j]` are
embedded with `List.get?`, an out-of-range column being a NumPy
`IndexError`, i.e. `Except.error`. -/

/-- Rewrite of one edge row inside `GraphEdgeInfo.finalize`:
`new_idx[:, 0] = tmp[:, 1]·num_nodes₀ + tmp[:, 0]` and
`new_idx[:, 1] = tmp[:, 3]·num_nodes₁ + tmp[:, 2]`. -/
def rewriteEdgeRow (n0 n1 : ℕ) (row : List ℤ) : Except String (List ℤ) :=
  match row.get? 0, row.get? 1, row.get? 2, row.get? 3 with
  | some cId, some cSlot, some oId, some oSlot =>
      .ok [cSlot * (n0 : ℤ) + cId, oSlot * (n1 : ℤ) + oId]
  | _, _, _, _ => .error "IndexError: column index out of bounds"

/-- Failure-propagating map, embedding a Python loop whose body may raise. -/
def mapExcept {α β : Type} (f : α → Except String β) :
    List α → Except String (List β)
  | [] => .ok []
  | a :: as => do
      let b ← f a
      let bs ← mapExcept f as
      return b :: bs

/-- `GraphEdgeInfo.finalize` for one chunk-pair key with node counts
`n0`, `n1`: trim the buffer to `count` rows, then rewrite each row to
flat offsets. -/
def edgeFinalize (n0 n1 count : ℕ) (rows : List (List ℤ)) :
    Except String (List (List ℤ)) :=
  mapExcept (rewriteEdgeRow n0 n1) (rows.take count)

theorem rewriteEdgeRow_of_len4 (n0 n1 : ℕ) (row : List ℤ)
    (h : row.length = 4) :
    rewriteEdgeRow n0 n1 row =
      .ok [row.getD 1 0 * (n0 : ℤ) + row.getD 0 0,
           row.getD 3 0 * (n1 : ℤ) + row.getD 2 0] := by
  rcases row with _ | ⟨a, _ | ⟨b, _ | ⟨c, _ | ⟨d, _ | ⟨e, t⟩⟩⟩⟩⟩ <;>
    simp_all [rewriteEdgeRow]

theorem mapExcept_ok {α β : Type} (f : α → Except String β) (g : α → β)
    (l : List α) (h : ∀ a ∈ l, f a = .ok (g a)) :
    mapExcept f l = .ok (l.map g) := by
  induction l with
  | nil => rfl
  | cons a as ih =>
      simp only [mapExcept, h a (by simp), ih fun a ha => h a (by simp [ha]),
        List.map_cons]
      rfl

theorem edge_finalize_ok_of_len4 (n0 n1 : ℕ) (rows : List (List ℤ))
    (h4 : ∀ r ∈ rows, r.length = 4) :
    edgeFinalize n0 n1 rows.length rows =
      .ok (rows.map fun r =>
        [r.getD 1 0 * (n0 : ℤ) + r.getD 0 0,
         r.getD 3 0 * (n1 : ℤ) + r.getD 2 0]) := by
  unfold edgeFinalize
  rw [List.take_length]
  exact mapExcept_ok _ _ _ fun r hr => rewriteEdgeRow_of_len4 n0 n1 r (h4 r hr)

/-- C9 counterexample: finalising the edge index is not idempotent.  On
the one-edge table `[[1, 2, 0, 1]]` (idA = 1, slotA = 2, idB = 0,
slotB = 1) with `N_A = 7`, `N_B = 5`, one finalisation yields the flat
offsets `[[15, 5]]`, but running the compaction again on its own output
does not yield those rows (it raises an index error on the now
2-column row). -/
theorem edge_finalize_twice_counterexample :
    edgeFinalize 7 5 1 [[(1 : ℤ), 2, 0, 1]] = .ok [[15, 5]] ∧
    edgeFinalize 7 5 1 [[(15 : ℤ), 5]] ≠ .ok [[15, 5]] := by
  constructor
  · rfl
  · have h : edgeFinalize 7 5 1 [[(15 : ℤ), 5]] =
        .error "IndexError: column index out of bounds" := rfl
    rw [h]
    exact fun hc => Except.noConfusion hc

/-- C9 amended: finalising the edge index is not idempotent.  A single
run of the compaction rewrites every 4-column edge row
`[idA, slotA, idB, slotB]` to the flat offsets
`[slotA·N_A + idA, slotB·N_B + idB]`, but running the compaction a
second time on a non-empty table fails with an out-of-bounds column
access (the rewritten rows only have 2 columns), rather than returning
the same rows.  (In the engine, `BpGraph.finalize` rejects double
finalisation, so the second run never happens.) -/
theorem edge_finalize_not_idempotent (n0 n1 : ℕ) (rows : List (List ℤ))
    (h4 : ∀ r ∈ rows, r.length = 4) :
    edgeFinalize n0 n1 rows.length rows =
      .ok (rows.map fun r =>
        [r.getD 1 0 * (n0 : ℤ) + r.getD 0 0,
         r.getD 3 0 * (n1 : ℤ) + r.getD 2 0]) ∧
    (rows ≠ [] →
      ∀ out, edgeFinalize n0 n1 rows.length rows = Except.ok out →
        ∃ e, edgeFinalize n0 n1 out.length out = Except.error e) := by
  have hfst := edge_finalize_ok_of_len4 n0 n1 rows h4
  refine ⟨hfst, fun hne out hout => ?_⟩
  rw [hfst] at hout
  obtain rfl : (rows.map fun r =>
      [r.getD 1 0 * (n0 : ℤ) + r.getD 0 0,
       r.getD 3 0 * (n1 : ℤ) + r.getD 2 0]) = out := by
    injection hout
  rcases rows with _ | ⟨r0, rest⟩
  · exact absurd rfl hne
  · refine ⟨"IndexError: column index out of bounds", ?_⟩
    rfl

theorem edge_finalize_not_idempotent_witness :
    (∀ r ∈ [[(1 : ℤ), 2, 0, 1]], r.length = 4) ∧
    (edgeFinalize 7 5 [[(1 : ℤ), 2, 0, 1]].length [[(1 : ℤ), 2, 0, 1]] =
        .ok ([[(1 : ℤ), 2, 0, 1]].map fun r =>
          [r.getD 1 0 * (7 : ℤ) + r.getD 0 0,
           r.getD 3 0 * (5 : ℤ) + r.getD 2 0]) ∧
      ([[(1 : ℤ), 2, 0, 1]] ≠ [] →
        ∀ out,
          edgeFinalize 7 5 [[(1 : ℤ), 2, 0, 1]].length [[(1 : ℤ), 2, 0, 1]] =
            Except.ok out →
          ∃ e, edgeFinalize 7 5 out.length out = Except.error e)) :=
  ⟨by decide, edge_finalize_not_idempotent 7 5 [[(1 : ℤ), 2, 0, 1]] (by decide)⟩

/-! ## BpGraph.__init__ parameter filling (bp_graph.py)

`__DEFAULT_PARAMS = {'iters': 1000, 'damp': 0.8, 'streak_lim': 10,
'tol': 1e-4}`.  The constructor keeps `self.bp_params = bp_params` (the
caller's dictionary object) when one is passed, and then writes every
missing default key into it; with `bp_params=None` it starts from a
fresh empty dictionary.  Python dictionaries are insertion-ordered, so a
dictionary is embedded as an association list (first hit wins on
lookup, new keys are appended at the end); object identity is embedded
with a small explicit heap mapping references to dictionaries. -/

/-- `BpGraph.__DEFAULT_PARAMS` (all values as exact rationals). -/
def defaultBpParams : List (String × ℚ) :=
  [("iters", 1000), ("damp", 4/5), ("streak_lim", 10), ("tol", 1/10000)]

/-- The loop `for field in __DEFAULT_PARAMS: if field not in bp_params:
bp_params[field] = __DEFAULT_PARAMS[field]`, acting in place on the
dictionary (new keys appended in insertion order). -/
def fillDefaults : List (String × ℚ) → List (String × ℚ) → List (String × ℚ)
  | [], d => d
  | kv :: rest, d =>
      fillDefaults rest (if (d.lookup kv.1).isSome then d else d ++ [kv])

/-- A heap of Python dictionary objects, keyed by reference. -/
def DictHeap : Type := ℕ → Option (List (String × ℚ))

/-- Write one dictionary object on the heap. -/
def heapUpdate (h : DictHeap) (r : ℕ) (d : List (String × ℚ)) : DictHeap :=
  fun r2 => if r2 = r then some d else h r2

/-- `BpGraph.__init__`: with `bp_params=None`, allocate a fresh empty
dictionary and fill it; otherwise alias the caller's dictionary and fill
it in place.  Returns the reference held in `self.bp_params` and the
heap after the call. -/
def bpGraphInit (bpParams : Option ℕ) (h : DictHeap) (fresh : ℕ) :
    ℕ × DictHeap :=
  match bpParams with
  | none => (fresh, heapUpdate h fresh (fillDefaults defaultBpParams []))
  | some r => (r, heapUpdate h r (fillDefaults defaultBpParams ((h r).getD [])))

theorem lookup_append_of_some {d d2 : List (String × ℚ)} {k : String}
    {v : ℚ} (hv : d.lookup k = some v) : (d ++ d2).lookup k = some v := by
  induction d with
  | nil => simp [List.lookup] at hv
  | cons a t ih =>
      rcases a with ⟨k1, v1⟩
      cases hbeq : (k == k1) with
      | true => simp [List.lookup, hbeq] at hv ⊢; exact hv
      | false => simp [List.lookup, hbeq] at hv ⊢; exact ih hv

theorem lookup_append_of_none {d d2 : List (String × ℚ)} {k : String}
    (hn : d.lookup k = none) : (d ++ d2).lookup k = d2.lookup k := by
  induction d with
  | nil => simp
  | cons a t ih =>
      rcases a with ⟨k1, v1⟩
      cases hbeq : (k == k1) with
      | true => simp [List.lookup, hbeq] at hn
      | false =>
          simp only [List.lookup, hbeq, List.cons_append] at hn ⊢
          exact ih hn

theorem lookup_fillDefaults_of_some {k : String} {v : ℚ} :
    ∀ (ds : List (String × ℚ)) (d : List (String × ℚ)),
      d.lookup k = some v → (fillDefaults ds d).lookup k = some v := by
  intro ds
  induction ds with
  | nil => intro d hv; exact hv
  | cons kv rest ih =>
      intro d hv
      by_cases hs : (d.lookup kv.1).isSome
      · simp only [fillDefaults]
        rw [if_pos hs]
        exact ih d hv
      · simp only [fillDefaults]
        rw [if_neg hs]
        exact ih _ (lookup_append_of_some hv)

theorem lookup_fillDefaults_of_default :
    ∀ (ds : List (String × ℚ)) (d : List (String × ℚ))
      (kv : String × ℚ), (ds.map Prod.fst).Nodup → kv ∈ ds →
      d.lookup kv.1 = none →
      (fillDefaults ds d).lookup kv.1 = some kv.2 := by
  intro ds
  induction ds with
  | nil => intro d kv _ hmem; simp at hmem
  | cons a rest ih =>
      intro d kv hnd hmem hnone
      rw [List.map_cons, List.nodup_cons] at hnd
      rcases List.mem_cons.mp hmem with rfl | hmem2
      · have hs : (d.lookup kv.1).isSome = false := by rw [hnone]; rfl
        simp only [fillDefaults]
        rw [if_neg (by rw [hs]; exact Bool.false_ne_true)]
        refine lookup_fillDefaults_of_some rest _ ?_
        rw [lookup_append_of_none hnone]
        simp [List.lookup]
      · have hne : kv.1 ≠ a.1 := by
          intro hc
          exact hnd.1 (hc ▸ List.mem_map_of_mem Prod.fst hmem2)
        by_cases hs : (d.lookup a.1).isSome
        · simp only [fillDefaults]
          rw [if_pos hs]
          exact ih d kv hnd.2 hmem2 hnone
        · simp only [fillDefaults]
          rw [if_neg hs]
          refine ih _ kv hnd.2 hmem2 ?_
          rw [lookup_append_of_none hnone]
          simp [List.lookup, beq_eq_false_iff_ne.mpr hne]

/-- C10: constructing the engine with a non-None `bp_params` dictionary
keeps a reference to that same dictionary object and writes every
missing default key (`iters`, `damp`, `streak_lim`, `tol`) into it, so
the caller's dictionary is mutated in place; keys the caller supplied
are left unchanged; no other heap object is touched; and passing None
touches no caller-visible dictionary (only a fresh one). -/
theorem bp_init_param_dict_aliasing (h : DictHeap) (r fresh : ℕ)
    (d : List (String × ℚ)) (hr : h r = some d) (_hfresh : h fresh = none) :
    (bpGraphInit (some r) h fresh).1 = r ∧
    (bpGraphInit (some r) h fresh).2 r = some (fillDefaults defaultBpParams d) ∧
    (∀ k v, d.lookup k = some v →
      (fillDefaults defaultBpParams d).lookup k = some v) ∧
    (∀ kv ∈ defaultBpParams, d.lookup kv.1 = none →
      (fillDefaults defaultBpParams d).lookup kv.1 = some kv.2) ∧
    (∀ r2, r2 ≠ r → (bpGraphInit (some r) h fresh).2 r2 = h r2) ∧
    (∀ r2, r2 ≠ fresh → (bpGraphInit none h fresh).2 r2 = h r2) := by
  refine ⟨rfl, ?_, ?_, ?_, ?_, ?_⟩
  · simp [bpGraphInit, heapUpdate, hr]
  · exact fun k v hv => lookup_fillDefaults_of_some defaultBpParams d hv
  · intro kv hkv hnone
    refine lookup_fillDefaults_of_default defaultBpParams d kv ?_ hkv hnone
    decide
  · intro r2 hne
    simp [bpGraphInit, heapUpdate, hne]
  · intro r2 hne
    simp [bpGraphInit, heapUpdate, hne]

/-- A two-object heap used to instantiate the aliasing theorem: object 0
is the caller's dictionary `{'damp': 0.5}`, reference 1 is unallocated. -/
def sampleHeap : DictHeap :=
  fun n => if n = 0 then some [("damp", (1 : ℚ)/2)] else none

theorem bp_init_param_dict_aliasing_witness :
    sampleHeap 0 = some [("damp", (1 : ℚ)/2)] ∧ sampleHeap 1 = none ∧
    ((bpGraphInit (some 0) sampleHeap 1).1 = 0 ∧
     (bpGraphInit (some 0) sampleHeap 1).2 0 =
       some (fillDefaults defaultBpParams [("damp", (1 : ℚ)/2)]) ∧
     (∀ k v, [("damp", (1 : ℚ)/2)].lookup k = some v →
       (fillDefaults defaultBpParams [("damp", (1 : ℚ)/2)]).lookup k = some v) ∧
     (∀ kv ∈ defaultBpParams, [("damp", (1 : ℚ)/2)].lookup kv.1 = none →
       (fillDefaults defaultBpParams [("damp", (1 : ℚ)/2)]).lookup kv.1 =
         some kv.2) ∧
     (∀ r2, r2 ≠ 0 → (bpGraphInit (some 0) sampleHeap 1).2 r2 = sampleHeap r2) ∧
     (∀ r2, r2 ≠ 1 → (bpGraphInit none sampleHeap 1).2 r2 = sampleHeap r2)) :=
  ⟨rfl, rfl,
    bp_init_param_dict_aliasing sampleHeap 0 1 [("damp", (1 : ℚ)/2)] rfl rfl⟩

/-! ## BpGraph.do_message_passing convergence loop (bp_graph.py)

Per iteration `itt` of `for itt in range(0, iters)`: messages are
computed and distributed, then for `itt != 0` the pair
`(max_diff, is_converged) = __check_converged()` is read (with
`is_converged = (max_diff <= tol)`), while iteration 0 short-circuits to
`(0, False)`; `streak_count` is incremented when converged and reset to
0 otherwise; and the loop breaks when `streak_count >= streak_lim`.
The per-iteration belief differences are abstracted as a sequence
`diff : ℕ → ℚ` (the value `__check_converged` would report at iteration
`i ≥ 1`); the message/belief updates themselves do not influence the
control flow beyond that sequence. -/

/-- `is_converged` as seen by iteration `i` (iteration 0 never converges). -/
def convAt (tol : ℚ) (diff : ℕ → ℚ) (i : ℕ) : Bool :=
  if i = 0 then false else decide (diff i ≤ tol)

/-- `max_diff` as reported (printed) by iteration `i`. -/
def reportedDiff (diff : ℕ → ℚ) (i : ℕ) : ℚ :=
  if i = 0 then 0 else diff i

/-- One update of `self.streak_count`. -/
def streakStep (conv : Bool) (streak : ℕ) : ℕ :=
  if conv then streak + 1 else 0

/-- Value of `streak_count` after iteration `i` has updated it. -/
def streakAfter (tol : ℚ) (diff : ℕ → ℚ) : ℕ → ℕ
  | 0 => streakStep (convAt tol diff 0) 0
  | i + 1 => streakStep (convAt tol diff (i + 1)) (streakAfter tol diff i)

/-- Value of `streak_count` on entry to iteration `i` (0 at entry to the
loop, from `__init__`). -/
def streakBefore (tol : ℚ) (diff : ℕ → ℚ) : ℕ → ℕ
  | 0 => 0
  | i + 1 => streakAfter tol diff i

/-- The iteration loop from iteration `itt` with `r` iterations left
before the cap and current `streak_count`; returns the iteration at
which `break` fires, or `none` when the loop runs to the cap. -/
def loopFrom (lim : ℕ) (tol : ℚ) (diff : ℕ → ℚ) :
    ℕ → ℕ → ℕ → Option ℕ
  | _, _, 0 => none
  | streak, itt, r + 1 =>
      let streak2 := streakStep (convAt tol diff itt) streak
      if lim ≤ streak2 then some itt
      else loopFrom lim tol diff streak2 (itt + 1) r

/-- `do_message_passing`: run the loop from iteration 0 with
`streak_count = 0`. -/
def stopIter (iters lim : ℕ) (tol : ℚ) (diff : ℕ → ℚ) : Option ℕ :=
  loopFrom lim tol diff 0 0 iters

theorem streakAfter_eq_step (tol : ℚ) (diff : ℕ → ℚ) (i : ℕ) :
    streakAfter tol diff i =
      streakStep (convAt tol diff i) (streakBefore tol diff i) := by
  cases i <;> rfl

theorem loopFrom_eq_some_iff (lim : ℕ) (tol : ℚ) (diff : ℕ → ℚ) :
    ∀ (r i j : ℕ),
      loopFrom lim tol diff (streakBefore tol diff i) i r = some j ↔
        (i ≤ j ∧ j < i + r ∧ lim ≤ streakAfter tol diff j ∧
          ∀ k, i ≤ k → k < j → streakAfter tol diff k < lim) := by
  intro r
  induction r with
  | zero =>
      intro i j
      simp only [loopFrom]
      constructor
      · intro hc; exact absurd hc (by simp)
      · intro ⟨h1, h2, _⟩; omega
  | succ r ih =>
      intro i j
      simp only [loopFrom, ← streakAfter_eq_step tol diff i]
      by_cases hstop : lim ≤ streakAfter tol diff i
      · rw [if_pos hstop]
        constructor
        · intro hj
          obtain rfl : i = j := by injection hj
          exact ⟨le_refl _, by omega, hstop, fun k hk1 hk2 => by omega⟩
        · intro ⟨h1, _, _, h4⟩
          rcases Nat.eq_or_lt_of_le h1 with rfl | hlt
          · rfl
          · exact absurd hstop (not_le.mpr (h4 i (le_refl _) hlt))
      · rw [if_neg hstop]
        have hpre : streakAfter tol diff i = streakBefore tol diff (i + 1) := rfl
        rw [hpre, ih (i + 1) j]
        constructor
        · intro ⟨h1, h2, h3, h4⟩
          exact ⟨by omega, by omega, h3, fun k hk1 hk2 => by
            rcases Nat.eq_or_lt_of_le hk1 with rfl | hklt
            · exact not_le.mp hstop
            · exact h4 k hklt hk2⟩
        · intro ⟨h1, h2, h3, h4⟩
          have hij : i ≠ j := by
            rintro rfl
            exact hstop h3
          exact ⟨by omega, by omega, h3, fun k hk1 hk2 => h4 k (by omega) hk2⟩

/-- C6: in `do_message_passing`, iteration 0 always reports
`max_diff = 0` and is never counted as converged; an iteration `i ≥ 1`
is counted as converged exactly when `diff i ≤ tol`; the streak counter
increments on a converged iteration and resets to 0 otherwise; and the
loop breaks at iteration `j` (before the iteration cap) exactly when
iteration `j` is the first whose streak update reaches `streak_lim`. -/
theorem bp_loop_iteration0_streak_and_stop (iters lim : ℕ) (tol : ℚ)
    (diff : ℕ → ℚ) :
    (reportedDiff diff 0 = 0 ∧ convAt tol diff 0 = false) ∧
    (∀ i, i ≠ 0 → (convAt tol diff i = true ↔ diff i ≤ tol)) ∧
    (∀ i, streakAfter tol diff i =
      if convAt tol diff i then streakBefore tol diff i + 1 else 0) ∧
    (∀ j, stopIter iters lim tol diff = some j ↔
      (j < iters ∧ lim ≤ streakAfter tol diff j ∧
        ∀ k, k < j → streakAfter tol diff k < lim)) := by
  refine ⟨⟨rfl, rfl⟩, ?_, ?_, ?_⟩
  · intro i hi
    simp [convAt, hi]
  · intro i
    rw [streakAfter_eq_step]
    rfl
  · intro j
    have hiff := loopFrom_eq_some_iff lim tol diff iters 0 j
    rw [show streakBefore tol diff 0 = 0 from rfl] at hiff
    rw [stopIter, hiff]
    constructor
    · intro ⟨_, h2, h3, h4⟩
      exact ⟨by omega, h3, fun k hk => h4 k (Nat.zero_le _) hk⟩
    · intro ⟨h1, h2, h3⟩
      exact ⟨Nat.zero_le _, by omega, h2, fun k _ hk => h3 k hk⟩

/-! ## MessageChunk.finalize and __alloc_message (message_chunk.py)

`__alloc_message` draws `msg_min + msg_range · U[0,1)` over the full
`[D, S, N]` shape; for the `uniform` strategy it first sets
`msg_range = 0.0` and `msg_min = 1.0`, for `random` it uses the chunk's
`msgs_init_min` (default 0.4) and `msgs_init_range` (default 0.2).
`finalize` then overwrites the padded slots `degree[i] ≤ d < D` of every
node `i` with `pad_msg_val` (per state), and performs NO clamping.  The
random draw is embedded as an explicit sample tensor `u` with each entry
in `[0, 1)`. -/

/-- `MessageChunk.MSGS_INIT_ENUM`. -/
inductive MsgsInitStrat where
  | random
  | uniform

/-- `MessageChunk._MSG_MIN_VAL = 1e-8`. -/
def MSG_MIN_VAL : ℚ := 1 / 100000000

/-- `MessageChunk._MSG_MAX_VAL = 1.0 - 1e-8`. -/
def MSG_MAX_VAL : ℚ := 1 - 1 / 100000000

/-- `MessageChunk.__alloc_message`: `msg_min + msg_range · u` with
`(msg_min, msg_range) = (1.0, 0.0)` for `uniform` and the chunk's
`(msgs_init_min, msgs_init_range)` for `random`; `u` is the
`np.random.random_sample` tensor. -/
def allocMessage {D S N : ℕ} (strat : MsgsInitStrat) (initMin initRange : ℚ)
    (u : Fin D → Fin S → Fin N → ℚ) : Fin D → Fin S → Fin N → ℚ :=
  match strat with
  | .uniform => fun d s n => 1 + 0 * u d s n
  | .random => fun d s n => initMin + initRange * u d s n

/-- `MessageChunk.finalize`: allocate via the init strategy, then write
`pad_msg_val[s]` into every slot `degree[i] ≤ d < D`. -/
def chunkFinalizeMsgs {D S N : ℕ} (degree : Fin N → ℕ) (pad : Fin S → ℚ)
    (strat : MsgsInitStrat) (initMin initRange : ℚ)
    (u : Fin D → Fin S → Fin N → ℚ) : Fin D → Fin S → Fin N → ℚ :=
  fun d s n =>
    if degree n ≤ d.val then pad s
    else allocMessage strat initMin initRange u d s n

/-- `NoisyOrNodes.__init__`: `message_chunks['input'].pad_msg_val =
np.asarray([1.0, 0.0])`. -/
def noisyOrInputPad : Fin 2 → ℚ := fun s => if s.val = 0 then 1 else 0

/-- Default pad value `1.0 / num_states` (set when `pad_msg_val == []`). -/
def defaultPadVal (S : ℕ) : Fin S → ℚ := fun _ => 1 / (S : ℚ)

/-- C2 counterexample: a finalized noisy-OR `input` chunk with one factor
of degree 0 (one padded slot) holds the pad value `[1, 0]` verbatim; its
state-1 entry is `0`, which lies strictly below `MSG_MIN = 1e-8`, so not
every entry of the msgs tensor lies in `[1e-8, 1 - 1e-8]` after
finalisation. -/
theorem msgs_range_after_finalize_counterexample :
    chunkFinalizeMsgs (D := 1) (fun _ : Fin 1 => 0) noisyOrInputPad
        .random (2/5) (1/5) (fun _ _ _ => 0) 0 1 0 = 0 ∧
    (0 : ℚ) < MSG_MIN_VAL := by
  constructor
  · rfl
  · norm_num [MSG_MIN_VAL]

/-- C2 amended: `finalize` performs no clamping; after finalisation a
padded slot holds `pad_msg_val` verbatim (for a noisy-OR `input` chunk
that is `[1, 0]`, outside `[MSG_MIN, MSG_MAX]`), while every non-padded
entry produced by the default `random` strategy
(`msgs_init_min = 0.4`, `msgs_init_range = 0.2`) lies in
`[0.4, 0.6] ⊆ [MSG_MIN, MSG_MAX]`. -/
theorem chunk_finalize_pad_verbatim_and_random_range {D S N : ℕ}
    (degree : Fin N → ℕ) (pad : Fin S → ℚ)
    (u : Fin D → Fin S → Fin N → ℚ)
    (hu : ∀ d s n, 0 ≤ u d s n ∧ u d s n < 1)
    (d : Fin D) (s : Fin S) (n : Fin N) :
    (degree n ≤ d.val →
      chunkFinalizeMsgs degree pad .random (2/5) (1/5) u d s n = pad s) ∧
    (d.val < degree n →
      MSG_MIN_VAL ≤ chunkFinalizeMsgs degree pad .random (2/5) (1/5) u d s n ∧
      chunkFinalizeMsgs degree pad .random (2/5) (1/5) u d s n ≤ MSG_MAX_VAL) := by
  constructor
  · intro hpad
    simp [chunkFinalizeMsgs, hpad]
  · intro hreal
    obtain ⟨hu0, hu1⟩ := hu d s n
    rw [chunkFinalizeMsgs, if_neg (by omega)]
    unfold allocMessage MSG_MIN_VAL MSG_MAX_VAL
    constructor <;> nlinarith

theorem chunk_finalize_pad_verbatim_and_random_range_witness :
    (∀ (d : Fin 1) (s : Fin 2) (n : Fin 2),
      0 ≤ (fun (_ : Fin 1) (_ : Fin 2) (_ : Fin 2) => (1 : ℚ)/2) d s n ∧
      (fun (_ : Fin 1) (_ : Fin 2) (_ : Fin 2) => (1 : ℚ)/2) d s n < 1) ∧
    (((fun i : Fin 2 => i.val) 0 ≤ (0 : Fin 1).val →
      chunkFinalizeMsgs (D := 1) (fun i : Fin 2 => i.val) noisyOrInputPad
        .random (2/5) (1/5) (fun _ _ _ => (1 : ℚ)/2) 0 1 0 = noisyOrInputPad 1) ∧
    ((0 : Fin 1).val < (fun i : Fin 2 => i.val) 0 →
      MSG_MIN_VAL ≤ chunkFinalizeMsgs (D := 1) (fun i : Fin 2 => i.val)
        noisyOrInputPad .random (2/5) (1/5) (fun _ _ _ => (1 : ℚ)/2) 0 1 0 ∧
      chunkFinalizeMsgs (D := 1) (fun i : Fin 2 => i.val) noisyOrInputPad
        .random (2/5) (1/5) (fun _ _ _ => (1 : ℚ)/2) 0 1 0 ≤ MSG_MAX_VAL)) :=
  ⟨fun _ _ _ => by norm_num,
    chunk_finalize_pad_verbatim_and_random_range (D := 1) (fun i : Fin 2 => i.val)
      noisyOrInputPad (fun _ _ _ => (1 : ℚ)/2)
      (fun _ _ _ => by norm_num) 0 1 0⟩

/-- C3 counterexample: for a finalized chunk with `S = 2` states under
the `uniform` init strategy, a non-padded entry equals `1.0` (the code
sets `msg_min = 1.0`, `msg_range = 0.0`), not `1/S = 1/2`. -/
theorem uniform_init_entry_counterexample :
    chunkFinalizeMsgs (D := 1) (fun _ : Fin 1 => 1) (defaultPadVal 2)
        .uniform (2/5) (1/5) (fun _ _ _ => 0) 0 0 0 = 1 ∧
    (1 : ℚ) ≠ 1/2 := by
  constructor
  · norm_num [chunkFinalizeMsgs, allocMessage]
  · norm_num

/-- C3 amended: `finalize()` sets every non-padded entry to `1.0` under
the `uniform` strategy (not `1/S`), and to
`msg_init_min + msg_init_range · u` for the sample `u ∈ [0, 1)` under
the `random` strategy. -/
theorem chunk_init_strategy_values {D S N : ℕ}
    (degree : Fin N → ℕ) (pad : Fin S → ℚ) (initMin initRange : ℚ)
    (u : Fin D → Fin S → Fin N → ℚ)
    (hu : ∀ d s n, 0 ≤ u d s n ∧ u d s n < 1)
    (d : Fin D) (s : Fin S) (n : Fin N) (hreal : d.val < degree n) :
    chunkFinalizeMsgs degree pad .uniform initMin initRange u d s n = 1 ∧
    (chunkFinalizeMsgs degree pad .random initMin initRange u d s n =
        initMin + initRange * u d s n ∧
      ∃ v, 0 ≤ v ∧ v < 1 ∧
        chunkFinalizeMsgs degree pad .random initMin initRange u d s n =
          initMin + initRange * v) := by
  have hneg : ¬ degree n ≤ d.val := by omega
  refine ⟨?_, ?_, ⟨u d s n, (hu d s n).1, (hu d s n).2, ?_⟩⟩ <;>
    simp [chunkFinalizeMsgs, allocMessage, hneg]

theorem chunk_init_strategy_values_witness :
    (∀ (d : Fin 1) (s : Fin 2) (n : Fin 1),
      0 ≤ (fun (_ : Fin 1) (_ : Fin 2) (_ : Fin 1) => (1 : ℚ)/2) d s n ∧
      (fun (_ : Fin 1) (_ : Fin 2) (_ : Fin 1) => (1 : ℚ)/2) d s n < 1) ∧
    ((0 : Fin 1).val < (fun _ : Fin 1 => 1) (0 : Fin 1)) ∧
    (chunkFinalizeMsgs (D := 1) (fun _ : Fin 1 => 1) (defaultPadVal 2) .uniform
        (2/5) (1/5) (fun _ _ _ => (1 : ℚ)/2) 0 0 0 = 1 ∧
      (chunkFinalizeMsgs (D := 1) (fun _ : Fin 1 => 1) (defaultPadVal 2) .random
          (2/5) (1/5) (fun _ _ _ => (1 : ℚ)/2) 0 0 0 =
          2/5 + 1/5 * (fun (_ : Fin 1) (_ : Fin 2) (_ : Fin 1) => (1 : ℚ)/2) 0 0 0 ∧
        ∃ v, 0 ≤ v ∧ v < 1 ∧
          chunkFinalizeMsgs (D := 1) (fun _ : Fin 1 => 1) (defaultPadVal 2) .random
            (2/5) (1/5) (fun _ _ _ => (1 : ℚ)/2) 0 0 0 = 2/5 + 1/5 * v)) :=
  ⟨fun _ _ _ => by norm_num, by norm_num,
    chunk_init_strategy_values (D := 1) (fun _ : Fin 1 => 1) (defaultPadVal 2)
      (2/5) (1/5) (fun _ _ _ => (1 : ℚ)/2) (fun _ _ _ => by norm_num)
      0 0 0 (by norm_num)⟩

/-! ## BpGraph._distribute_messages (bp_graph.py)

For one destination chunk `P` (already switched to distribute layout,
`[R, S]` rows) the code runs the two fancy-indexed NumPy statements
`P.msgs_in[dest_idxs, :] *= damp` and
`P.msgs_in[dest_idxs, :] += (1-damp)*out[source_idxs, :]` where the edge
index supplies the pairs `(source_idx, dest_idx)`.  NumPy scatter-assign
semantics: every row listed in `dest_idxs` is scaled once, and the `+=`
gather-add-scatter leaves, for a repeated destination, the value written
by its last occurrence; in the engine `dest_idxs` has no duplicates
(one flat offset per edge). -/

/-- Source row paired with the last occurrence of destination row `r` in
the edge list (NumPy scatter: last write wins). -/
def lastSrcFor {M R : ℕ} (edges : List (Fin M × Fin R)) (r : Fin R) :
    Option (Fin M) :=
  ((edges.filter fun e => e.2 == r).getLast?).map Prod.fst

/-- `P.msgs_in[dest_idxs, :] *= damp`. -/
def scatterMulRows {R S : ℕ} (c : ℚ) (dsts : List (Fin R))
    (msgs : Fin R → Fin S → ℚ) : Fin R → Fin S → ℚ :=
  fun r s => if r ∈ dsts then c * msgs r s else msgs r s

/-- `P.msgs_in[dest_idxs, :] += vals[source_idxs, :]` (last write wins on
a repeated destination row). -/
def scatterAddRows {M R S : ℕ} (edges : List (Fin M × Fin R))
    (vals : Fin M → Fin S → ℚ) (msgs : Fin R → Fin S → ℚ) :
    Fin R → Fin S → ℚ :=
  fun r s =>
    match lastSrcFor edges r with
    | some m => msgs r s + vals m s
    | none => msgs r s

/-- `BpGraph._distribute_messages`, restricted to one destination chunk:
damped delivery of the distribute-layout outgoing tensor `out` into the
peer's distribute-layout `msgs` along the edge rows. -/
def distributeToPeer {M R S : ℕ} (damp : ℚ) (out : Fin M → Fin S → ℚ)
    (edges : List (Fin M × Fin R)) (msgs : Fin R → Fin S → ℚ) :
    Fin R → Fin S → ℚ :=
  scatterAddRows edges (fun m s => (1 - damp) * out m s)
    (scatterMulRows damp (edges.map Prod.snd) msgs)

theorem filter_snd_eq_of_nodup {M R : ℕ} :
    ∀ (edges : List (Fin M × Fin R)) (e : Fin M × Fin R),
      (edges.map Prod.snd).Nodup → e ∈ edges →
      (edges.filter fun x => x.2 == e.2) = [e] := by
  intro edges
  induction edges with
  | nil => intro e _ he; simp at he
  | cons a t ih =>
      intro e hnd he
      rw [List.map_cons, List.nodup_cons] at hnd
      rcases List.mem_cons.mp he with rfl | hmem
      · have hnone : t.filter (fun x => x.2 == e.2) = [] := by
          rw [List.filter_eq_nil_iff]
          intro x hx
          simp only [beq_iff_eq]
          intro hc
          exact hnd.1 (hc ▸ List.mem_map_of_mem Prod.snd hx)
        simp [List.filter_cons, hnone]
      · have hne : a.2 ≠ e.2 := by
          intro hc
          exact hnd.1 (hc ▸ List.mem_map_of_mem Prod.snd hmem)
        rw [List.filter_cons_of_neg (by simpa using hne)]
        exact ih e hnd.2 hmem

/-- C5: distributing a computed outgoing tensor to a peer chunk updates
exactly the destination rows of the peer's distribute-layout msgs
tensor, each by `new_row = damp · old_row + (1 − damp) · out[src_row]`;
rows not listed as destinations are unchanged.  (The damping factor is
the single `bp_params['damp']`, used identically for every peer.) -/
theorem distribute_damped_update {M R S : ℕ} (damp : ℚ)
    (out : Fin M → Fin S → ℚ) (edges : List (Fin M × Fin R))
    (msgs : Fin R → Fin S → ℚ) (hnd : (edges.map Prod.snd).Nodup) :
    (∀ e ∈ edges, ∀ s, distributeToPeer damp out edges msgs e.2 s =
        damp * msgs e.2 s + (1 - damp) * out e.1 s) ∧
    (∀ r, r ∉ edges.map Prod.snd → ∀ s,
        distributeToPeer damp out edges msgs r s = msgs r s) := by
  constructor
  · intro e he s
    have hmem : e.2 ∈ edges.map Prod.snd := List.mem_map_of_mem Prod.snd he
    have hlast : lastSrcFor edges e.2 = some e.1 := by
      rw [lastSrcFor, filter_snd_eq_of_nodup edges e hnd he]
      rfl
    simp [distributeToPeer, scatterAddRows, scatterMulRows, hlast, hmem]
  · intro r hr s
    have hnone : lastSrcFor edges r = none := by
      rw [lastSrcFor, List.filter_eq_nil_iff.mpr]
      · rfl
      · intro x hx
        simp only [beq_iff_eq]
        intro hc
        exact hr (hc ▸ List.mem_map_of_mem Prod.snd hx)
    simp [distributeToPeer, scatterAddRows, scatterMulRows, hnone, hr]

theorem distribute_damped_update_witness :
    (([((0 : Fin 2), (1 : Fin 2))].map Prod.snd).Nodup) ∧
    ((∀ e ∈ [((0 : Fin 2), (1 : Fin 2))], ∀ s : Fin 2,
        distributeToPeer (4/5) (fun _ _ => (1 : ℚ)/3)
          [((0 : Fin 2), (1 : Fin 2))] (fun _ _ => (1 : ℚ)/2) e.2 s =
          4/5 * (fun (_ : Fin 2) (_ : Fin 2) => (1 : ℚ)/2) e.2 s +
            (1 - 4/5) * (fun (_ : Fin 2) (_ : Fin 2) => (1 : ℚ)/3) e.1 s) ∧
    (∀ r : Fin 2, r ∉ [((0 : Fin 2), (1 : Fin 2))].map Prod.snd → ∀ s : Fin 2,
        distributeToPeer (4/5) (fun _ _ => (1 : ℚ)/3)
          [((0 : Fin 2), (1 : Fin 2))] (fun _ _ => (1 : ℚ)/2) r s =
          (fun (_ : Fin 2) (_ : Fin 2) => (1 : ℚ)/2) r s)) :=
  ⟨by decide,
    distribute_damped_update (4/5) (fun _ _ => (1 : ℚ)/3)
      [((0 : Fin 2), (1 : Fin 2))] (fun _ _ => (1 : ℚ)/2) (by decide)⟩

/-! ## CatNodes._do_compute_messages (nodesLib/cat_nodes.py)

Roles: `input` (degree 1, `S_in` states), `output` (degree `D_out`,
binary).  `probs[d, s]` is `p(out_d = 1 | in = s)`.  With
`output_ratio[d, n] = msg_out[d, 1, n] / msg_out[d, 0, n]` the code
computes, for the message to the outputs,
`msg[:, 1, :] = reduce_s(probs · msg_in)` and then
`msg[:, 0, :] = reduce_d(output_ratio · msg[:, 1, :]) − output_ratio · msg[:, 1, :]`
followed by normalisation along the state axis; `reduce` is `np.sum` or
`np.max` per `bp_algo`. -/

/-- `bp_algo ∈ {'sum', 'max'}`. -/
inductive BpAlgo where
  | sum
  | max

/-- `np.max` over one axis (0 on an empty axis, which NumPy rejects). -/
def npMax {k : ℕ} (f : Fin k → ℚ) : ℚ :=
  if h : 0 < k then Finset.univ.sup' ⟨⟨0, h⟩, Finset.mem_univ _⟩ f else 0

/-- `self.max_or_sum` applied along one axis. -/
def reduceAlgo (algo : BpAlgo) {k : ℕ} (f : Fin k → ℚ) : ℚ :=
  match algo with
  | .sum => ∑ i, f i
  | .max => npMax f

/-- The spec's leave-one-out reduction `reduce_{d' ≠ d}` (second
definition, following the spec's words, for the refinement claim). -/
def reduceAlgoErase (algo : BpAlgo) {k : ℕ} (d : Fin k) (f : Fin k → ℚ) : ℚ :=
  match algo with
  | .sum => ∑ i in Finset.univ.erase d, f i
  | .max =>
      if h : (Finset.univ.erase d).Nonempty then (Finset.univ.erase d).sup' h f
      else 0

/-- `output_ratio = msg_from_outputs[:, [1], :] / msg_from_outputs[:, [0], :]`. -/
def ratioOut {Dout N : ℕ} (msgOut : Fin Dout → Fin 2 → Fin N → ℚ)
    (d : Fin Dout) (n : Fin N) : ℚ :=
  msgOut d 1 n / msgOut d 0 n

/-- `msg[:, [1], :] = max_or_sum(probs · msg_from_input, axis=1)`. -/
def catMsgOn (algo : BpAlgo) {Dout Sin N : ℕ} (probs : Fin Dout → Fin Sin → ℚ)
    (msgIn : Fin 1 → Fin Sin → Fin N → ℚ) (d : Fin Dout) (n : Fin N) : ℚ :=
  reduceAlgo algo (fun s => probs d s * msgIn 0 s n)

/-- `output_ratio · msg[:, [1], :]` (the value the off-message reduces over). -/
def catMsgOffPre (algo : BpAlgo) {Dout Sin N : ℕ}
    (probs : Fin Dout → Fin Sin → ℚ) (msgOut : Fin Dout → Fin 2 → Fin N → ℚ)
    (msgIn : Fin 1 → Fin Sin → Fin N → ℚ) (d : Fin Dout) (n : Fin N) : ℚ :=
  ratioOut msgOut d n * catMsgOn algo probs msgIn d n

/-- `msg[:, [0], :] = max_or_sum(msg[:, [0], :], axis=0) − msg[:, [0], :]`
(reduce over ALL slots, then subtract the slot's own value). -/
def catMsgOff (algo : BpAlgo) {Dout Sin N : ℕ}
    (probs : Fin Dout → Fin Sin → ℚ) (msgOut : Fin Dout → Fin 2 → Fin N → ℚ)
    (msgIn : Fin 1 → Fin Sin → Fin N → ℚ) (d : Fin Dout) (n : Fin N) : ℚ :=
  reduceAlgo algo (fun d2 => catMsgOffPre algo probs msgOut msgIn d2 n) -
    catMsgOffPre algo probs msgOut msgIn d n

/-- `res['output']` of `CatNodes._do_compute_messages`: the pair
`(m_off, m_on)` normalised to sum to 1 along the state axis. -/
def catMsgToOutput (algo : BpAlgo) {Dout Sin N : ℕ}
    (probs : Fin Dout → Fin Sin → ℚ) (msgOut : Fin Dout → Fin 2 → Fin N → ℚ)
    (msgIn : Fin 1 → Fin Sin → Fin N → ℚ) :
    Fin Dout → Fin 2 → Fin N → ℚ :=
  fun d s n =>
    (if s.val = 0 then catMsgOff algo probs msgOut msgIn d n
     else catMsgOn algo probs msgIn d n) /
      (catMsgOff algo probs msgOut msgIn d n + catMsgOn algo probs msgIn d n)

/-- The spec's message to the outputs (second definition, following the
spec's words): `m_off[d, n] = reduce_{d' ≠ d} (r[d', n] · m_on[d', n])`,
then `(m_off, m_on)` normalised to sum to 1. -/
def specCatMsgToOutput (algo : BpAlgo) {Dout Sin N : ℕ}
    (probs : Fin Dout → Fin Sin → ℚ) (msgOut : Fin Dout → Fin 2 → Fin N → ℚ)
    (msgIn : Fin 1 → Fin Sin → Fin N → ℚ) :
    Fin Dout → Fin 2 → Fin N → ℚ :=
  fun d s n =>
    (if s.val = 0 then
       reduceAlgoErase algo d (fun d2 => catMsgOffPre algo probs msgOut msgIn d2 n)
     else catMsgOn algo probs msgIn d n) /
      (reduceAlgoErase algo d (fun d2 => catMsgOffPre algo probs msgOut msgIn d2 n) +
        catMsgOn algo probs msgIn d n)

theorem npMax_fin1 (f : Fin 1 → ℚ) : npMax f = f 0 := by
  unfold npMax
  rw [dif_pos (by norm_num)]
  refine le_antisymm (Finset.sup'_le _ _ fun i _ => ?_)
    (Finset.le_sup' f (Finset.mem_univ 0))
  fin_cases i
  exact le_refl _

theorem npMax_fin2 (f : Fin 2 → ℚ) : npMax f = Max.max (f 0) (f 1) := by
  unfold npMax
  rw [dif_pos (by norm_num)]
  apply le_antisymm
  · refine Finset.sup'_le _ _ fun i _ => ?_
    fin_cases i
    · exact le_max_left _ _
    · exact le_max_right _ _
  · exact max_le (Finset.le_sup' f (Finset.mem_univ 0))
      (Finset.le_sup' f (Finset.mem_univ 1))

theorem reduceAlgoErase_max_fin2_zero (f : Fin 2 → ℚ) :
    reduceAlgoErase .max 0 f = f 1 := by
  unfold reduceAlgoErase
  have he : (Finset.univ.erase (0 : Fin 2)) = {1} := by decide
  rw [he, dif_pos ⟨1, Finset.mem_singleton_self 1⟩]
  simp

/-- C4 counterexample: under the max semiring the off-message is NOT the
leave-one-out reduction.  With 2 output slots, a 1-state input,
`probs ≡ 1`, uniform input message and output messages giving ratios
`(3, 1)`, the code yields `msg[0, 0, 0] = (max(3,1) − 3)/((max(3,1) − 3) + 1) = 0`
while the spec's `reduce_{d' ≠ 0}` yields `1/(1+1) = 1/2`. -/
theorem cat_max_leave_one_out_counterexample :
    catMsgToOutput .max (fun (_ : Fin 2) (_ : Fin 1) => (1 : ℚ))
        (fun d s _ => if d.val = 0 then (if s.val = 0 then 1 else 3) else 1)
        (fun (_ : Fin 1) (_ : Fin 1) (_ : Fin 1) => (1 : ℚ)) 0 0 0 = 0 ∧
    specCatMsgToOutput .max (fun (_ : Fin 2) (_ : Fin 1) => (1 : ℚ))
        (fun d s _ => if d.val = 0 then (if s.val = 0 then 1 else 3) else 1)
        (fun (_ : Fin 1) (_ : Fin 1) (_ : Fin 1) => (1 : ℚ)) 0 0 0 = 1/2 ∧
    (0 : ℚ) ≠ 1/2 := by
  refine ⟨?_, ?_, by norm_num⟩
  · norm_num [catMsgToOutput, catMsgOff, catMsgOffPre, catMsgOn, ratioOut,
      reduceAlgo, npMax_fin1, npMax_fin2, max_def]
  · norm_num [specCatMsgToOutput, reduceAlgoErase_max_fin2_zero, catMsgOffPre,
      catMsgOn, ratioOut, reduceAlgo, npMax_fin1]

/-- C4 amended: the code computes
`m_on[d, n] = reduce_s(probs[d, s]·μ_in[0, s, n])`,
`m_off_pre[d] = r[d, n]·m_on[d, n]`, and
`m_off[d, n] = reduce_{d'} m_off_pre[d'] − m_off_pre[d]` (a reduction
over ALL slots, own slot subtracted), then normalises `(m_off, m_on)`.
Under the sum semiring this equals the spec's leave-one-out
`reduce_{d' ≠ d}` message; under max it does not. -/
theorem cat_output_message_sum_leave_one_out {Dout Sin N : ℕ}
    (probs : Fin Dout → Fin Sin → ℚ) (msgOut : Fin Dout → Fin 2 → Fin N → ℚ)
    (msgIn : Fin 1 → Fin Sin → Fin N → ℚ) :
    catMsgToOutput .sum probs msgOut msgIn =
      specCatMsgToOutput .sum probs msgOut msgIn ∧
    (∀ (d : Fin Dout) (n : Fin N),
      catMsgOff .max probs msgOut msgIn d n =
        npMax (fun d2 => catMsgOffPre .max probs msgOut msgIn d2 n) -
          catMsgOffPre .max probs msgOut msgIn d n) := by
  constructor
  · funext d s n
    have hoff : catMsgOff .sum probs msgOut msgIn d n =
        reduceAlgoErase .sum d
          (fun d2 => catMsgOffPre .sum probs msgOut msgIn d2 n) := by
      rw [catMsgOff, reduceAlgo, reduceAlgoErase,
        ← Finset.sum_erase_add Finset.univ _ (Finset.mem_univ d)]
      ring
    rw [catMsgToOutput, specCatMsgToOutput, hoff]
  · intro d n
    rfl

/-! ## Phase guards: create_entries / set_num_states / add_unaries /
condition_on (message_chunk.py, var_nodes.py)

`MessageChunk.create_entries` and `MessageChunk.set_num_states` assert
`not self._finalized`; `VarNodes.add_unaries` asserts only shape facts
(row count = id count, state count = `S`) and `VarNodes.condition_on`
only `state < num_states` — neither consults the finalized flag.
Python `assert` failures and NumPy indexing errors are `Except.error`.

Shapes: after `reshape` + `swapaxes(0, 2)` (lines 130-132) the new
`unary_vals` is an `[1, S, R]` ndarray; `nodes_params['log_unary']` is
`[1, S, K]` (one column per stored unary, along axis 2) and
`nodes_params['unary_idx']` the matching id list.  Axis 0 is kept as an
explicit outer list because `__merge_duplicate_unaries` indexes it:
`unary_vals[[i], :, :]` (line 169) fancy-indexes the size-1 axis 0 by
the call position `i`; `log_unary[idx, :]` (line 178) indexes the
size-1 axis 0 by the position of the duplicate in `unary_idx`; and
`log_dups_val[int(i), :]` (line 178) indexes the stacked duplicate
slices by the NODE ID `i`, not its position.  Each of these raises
IndexError (here: `Except.error`) whenever its index is not 0, so the
duplicate-merge path crashes on most inputs; `np.delete(node_ids,
dups)` (lines 180-181) likewise uses the duplicate ids as positions.
The in-place `+=` broadcasts its `[S, R]` right operand over the
`[S, K]` left one when `R = 1` (both operands have `S` rows in every
state this code builds; other row counts are modelled as the
broadcast `ValueError`). -/

/-- The `MessageChunk` state the phase guards read. -/
structure ChunkSt where
  numEntries : ℕ
  numStates : ℕ
  finalized : Bool

/-- `MessageChunk.create_entries`. -/
def createEntries (c : ChunkSt) (k : ℕ) : Except String (List ℕ × ChunkSt) :=
  if c.finalized then .error "Cannot make changes to a finalized MessageChunk"
  else
    .ok ((List.range k).map (fun i => c.numEntries + i),
      { c with numEntries := c.numEntries + k })

/-- `MessageChunk.set_num_states` (asserts `num_states > 0` first, then
the finalized guard). -/
def setNumStates (c : ChunkSt) (s : ℕ) : Except String ChunkSt :=
  if s = 0 then .error "Number of states must be > 0"
  else if c.finalized then
    .error "Cannot make changes to a finalized MessageChunk"
  else .ok { c with numStates := s }

/-- One axis-0 slice of a `[·, S, K]` unary ndarray: `S` rows (states),
`K` columns (stored unaries in insertion order). -/
abbrev UnaryMat : Type := List (List ℝ)

/-- `nodes_params['unary_idx']` and `nodes_params['log_unary']`
(`logU` is the axis-0 list of `[S, K]` slices; length 1 whenever built
by this code). -/
structure UnarySt where
  idx : List ℕ
  logU : List UnaryMat

/-- `VarNodes` state: its `vars` chunk and the optional unary storage. -/
structure VarSt where
  chunk : ChunkSt
  unaries : Option UnarySt

/-- Normalise a unary row, clip to `[1e-12, 1 − 1e-12]`, renormalise
(`add_unaries` lines 136-140; along axis 1 this acts per input row). -/
noncomputable def normClipRow (row : List ℝ) : List ℝ :=
  let row1 := row.map (fun x => x / row.sum)
  let row2 := row1.map (fun x =>
    Max.max (1/1000000000000) (Min.min x (1 - 1/1000000000000)))
  row2.map (fun x => x / row2.sum)

/-- Indexing along axis 0 of an ndarray; out of range is IndexError. -/
def getIdxExcept {α : Type} (l : List α) (i : ℕ) : Except String α :=
  match l.get? i with
  | some a => .ok a
  | none => .error "IndexError: index out of bounds for axis 0"

/-- `np.log`, elementwise on a `[·, S, K]` array. -/
noncomputable def matLog (a : List UnaryMat) : List UnaryMat :=
  a.map fun m => m.map fun row => row.map Real.log

/-- `np.where(unary_idx == i)[0][0]`: position of the first occurrence;
`[0][0]` of an empty hit list is IndexError. -/
def firstIndexOf : List ℕ → ℕ → Except String ℕ
  | [], _ => .error "IndexError: index 0 is out of bounds for axis 0 with size 0"
  | a :: rest, i =>
      if a = i then .ok 0 else (firstIndexOf rest i).map (· + 1)

/-- NumPy in-place `+=` of an `[S, R]` slice into an `[S, K]` slice:
columnwise when `R = K`, broadcast of the single column when `R = 1`,
`ValueError` otherwise. -/
noncomputable def broadcastAddMat (lhs rhs : UnaryMat) :
    Except String UnaryMat :=
  if rhs.length = lhs.length then
    (lhs.zip rhs).mapM fun p =>
      if p.2.length = p.1.length then .ok (List.zipWith (· + ·) p.1 p.2)
      else if p.2.length = 1 then .ok (p.1.map (· + p.2.headD 0))
      else .error "ValueError: operands could not be broadcast together"
  else .error "ValueError: operands could not be broadcast together"

/-- `np.delete(arr, positions)` along the leading axis (the source
passes the duplicate NODE IDS here, so ids act as positions; on every
path that survives the merge loop they are in range). -/
def deleteAtPositions {α : Type} (pos : List ℕ) : List α → ℕ → List α
  | [], _ => []
  | a :: rest, i =>
      if pos.contains i then deleteAtPositions pos rest (i + 1)
      else a :: deleteAtPositions pos rest (i + 1)

/-- First loop of `__merge_duplicate_unaries` (lines 163-171): walk the
call's ids with their positions, collecting duplicate ids and the
slices `unary_vals[[i], :, :]` — an IndexError when the call position
`i` exceeds axis 0 (size 1). -/
def collectDupsGo (uIdx : List ℕ) (uArr : List UnaryMat) :
    List ℕ → ℕ → List ℕ × List UnaryMat →
    Except String (List ℕ × List UnaryMat)
  | [], _, acc => .ok acc
  | nid :: rest, i, acc =>
      if uIdx.contains nid then do
        let slice ← getIdxExcept uArr i
        collectDupsGo uIdx uArr rest (i + 1) (acc.1 ++ [nid], acc.2 ++ [slice])
      else collectDupsGo uIdx uArr rest (i + 1) acc

/-- Second loop of `__merge_duplicate_unaries` (lines 173-178): for each
duplicate id `i`, `log_unary[idx, :] += log_dups_val[int(i), :]` with
`idx` the position of `i` in `unary_idx` — IndexError when `idx ≥ 1`
(axis 0 has size 1) or when the node id `i` is not a valid position in
the duplicate stack. -/
noncomputable def applyDupMerge (uIdx : List ℕ) (logU : List UnaryMat)
    (dups : List ℕ) (dupsVal : List UnaryMat) :
    Except String (List UnaryMat) :=
  let logDups := matLog dupsVal
  dups.foldlM (fun cur i => do
    let idx ← firstIndexOf uIdx i
    let lhs ← getIdxExcept cur idx
    let rhs ← getIdxExcept logDups i
    let merged ← broadcastAddMat lhs rhs
    return cur.set idx merged) logU

/-- `VarNodes.__merge_duplicate_unaries`: collect duplicates, merge
their logs in place, then delete them (ids used as positions) from the
call's ids and values.  Returns (remaining ids, remaining `[·, S, R]`
values, updated `log_unary`). -/
noncomputable def mergeDuplicateUnaries (st : UnarySt) (nodeIds : List ℕ)
    (uArr : List UnaryMat) :
    Except String (List ℕ × List UnaryMat × List UnaryMat) := do
  let dups ← collectDupsGo st.idx uArr nodeIds 0 ([], [])
  let logU2 ←
    if dups.1.isEmpty then pure st.logU
    else applyDupMerge st.idx st.logU dups.1 dups.2
  return (deleteAtPositions dups.1 nodeIds 0,
    deleteAtPositions dups.1 uArr 0, logU2)

/-- `np.concatenate(·, ·, axis=2)` on `[·, S, K]` arrays: the axis-0
lengths must agree (ValueError otherwise), then columns are appended
slice by slice, row by row. -/
def concatAxis2 (a b : List UnaryMat) : Except String (List UnaryMat) :=
  if a.length = b.length then
    .ok (List.zipWith (fun ma mb => List.zipWith (· ++ ·) ma mb) a b)
  else .error "ValueError: all the input array dimensions except for the concatenation axis must match exactly"

/-- `VarNodes.add_unaries` (2-D `unary_vals` form): shape asserts, the
normalise/clip pipeline, the `[1, S, R]` reshape (a transpose of the
processed rows), then either first-time storage (`else` branch, lines
152-154) or duplicate merge plus axis-2 concatenation (lines 142-151).
No finalized guard anywhere. -/
noncomputable def addUnaries (v : VarSt) (ids : List ℕ)
    (vals : List (List ℝ)) : Except String VarSt :=
  if vals.length ≠ ids.length then
    .error "Must specify unary potential for each specified variable node."
  else if !(vals.all fun row => row.length == v.chunk.numStates) then
    .error "Unary potentials must specify same number of states as node."
  else
    let uArr : List UnaryMat := [(vals.map normClipRow).transpose]
    match v.unaries with
    | none => .ok { v with unaries := some ⟨ids, matLog uArr⟩ }
    | some st => do
        let merged ← mergeDuplicateUnaries st ids uArr
        if merged.1.length > 0 then do
          let logU3 ← concatAxis2 merged.2.2 (matLog merged.2.1)
          return { v with unaries := some ⟨st.idx ++ merged.1, logU3⟩ }
        else
          return { v with unaries := some ⟨st.idx, merged.2.2⟩ }

/-- One-hot row `tmp = [0]*num_states; tmp[state] = 1.0` of
`condition_on`. -/
noncomputable def oneHotRow (states state : ℕ) : List ℝ :=
  (List.range states).map fun j => if j = state then 1 else 0

/-- `VarNodes.condition_on`: assert `state < num_states`, then
`add_unaries([node_id], tmp)` for each id.  No finalized guard. -/
noncomputable def conditionOn (v : VarSt) (ids : List ℕ) (state : ℕ) :
    Except String VarSt :=
  if !(state < v.chunk.numStates : Bool) then
    .error "assert state < self.num_states"
  else
    ids.foldlM (fun acc i =>
      addUnaries acc [i] [oneHotRow v.chunk.numStates state]) v

theorem collectDupsGo_fresh (uIdx : List ℕ) (uArr : List UnaryMat) :
    ∀ (l : List ℕ) (i : ℕ) (acc : List ℕ × List UnaryMat),
      (∀ nid ∈ l, nid ∉ uIdx) →
      collectDupsGo uIdx uArr l i acc = .ok acc := by
  intro l
  induction l with
  | nil => intro i acc _; rfl
  | cons a t ih =>
      intro i acc h
      rw [collectDupsGo, if_neg (fun hc : uIdx.contains a = true =>
        h a (List.mem_cons_self a t) (List.mem_of_elem_eq_true hc))]
      exact ih (i + 1) acc fun nid hn => h nid (List.mem_cons_of_mem a hn)

theorem deleteAtPositions_nil_pos {α : Type} :
    ∀ (l : List α) (i : ℕ), deleteAtPositions [] l i = l := by
  intro l
  induction l with
  | nil => intro i; rfl
  | cons a t ih =>
      intro i
      rw [deleteAtPositions, if_neg (fun hc : ([] : List ℕ).contains i = true =>
        List.not_mem_nil i (List.mem_of_elem_eq_true hc))]
      rw [ih (i + 1)]

theorem mergeDuplicateUnaries_fresh (st : UnarySt) (nodeIds : List ℕ)
    (uArr : List UnaryMat) (h : ∀ i ∈ nodeIds, i ∉ st.idx) :
    mergeDuplicateUnaries st nodeIds uArr = .ok (nodeIds, uArr, st.logU) := by
  rw [mergeDuplicateUnaries,
    collectDupsGo_fresh st.idx uArr nodeIds 0 ([], []) h]
  show Except.ok (deleteAtPositions [] nodeIds 0,
    deleteAtPositions [] uArr 0, st.logU) = _
  rw [deleteAtPositions_nil_pos, deleteAtPositions_nil_pos]

theorem exceptOk_bind {α β : Type} (a : α) (f : α → Except String β) :
    (Except.ok a >>= f) = f a := rfl

theorem addUnaries_fresh_ok (v : VarSt) (ids : List ℕ)
    (vals : List (List ℝ)) (hlen : vals.length = ids.length)
    (hrows : (vals.all fun row => row.length == v.chunk.numStates) = true)
    (hfresh : ∀ st, v.unaries = some st →
      (∀ i ∈ ids, i ∉ st.idx) ∧ st.logU.length = 1) :
    ∃ w, addUnaries v ids vals = .ok w ∧ w.chunk = v.chunk ∧
      ∃ st2, w.unaries = some st2 ∧ st2.logU.length = 1 ∧
        st2.idx = v.unaries.elim ids (fun st => st.idx ++ ids) := by
  rw [addUnaries, if_neg (by simp [hlen]), if_neg (by simp_all)]
  cases hu : v.unaries with
  | none =>
      exact ⟨{ v with unaries := some (UnarySt.mk ids
          (matLog [(vals.map normClipRow).transpose])) },
        rfl, rfl,
        ⟨ids, matLog [(vals.map normClipRow).transpose]⟩, rfl, rfl, rfl⟩
  | some st =>
      obtain ⟨hids, hlen1⟩ := hfresh st hu
      have hmerge := mergeDuplicateUnaries_fresh st ids
        [(vals.map normClipRow).transpose] hids
      rcases ids with _ | ⟨i0, rest⟩
      · refine ⟨{ v with unaries := some ⟨st.idx, st.logU⟩ }, ?_, rfl,
          ⟨st.idx, st.logU⟩, rfl, hlen1, by simp⟩
        simp only [hmerge, exceptOk_bind]
        rfl
      · have hcat : concatAxis2 st.logU
            (matLog [(vals.map normClipRow).transpose]) =
            .ok (List.zipWith (fun ma mb => List.zipWith (· ++ ·) ma mb)
              st.logU (matLog [(vals.map normClipRow).transpose])) := by
          rw [concatAxis2, if_pos (by rw [hlen1]; rfl)]
        refine ⟨{ v with unaries := some (UnarySt.mk (st.idx ++ i0 :: rest)
            (List.zipWith (fun ma mb => List.zipWith (· ++ ·) ma mb)
              st.logU (matLog [(vals.map normClipRow).transpose]))) },
          ?_, rfl,
          ⟨st.idx ++ i0 :: rest,
            List.zipWith (fun ma mb => List.zipWith (· ++ ·) ma mb)
              st.logU (matLog [(vals.map normClipRow).transpose])⟩,
          rfl, ?_, by simp⟩
        · simp only [hmerge, exceptOk_bind]
          rw [if_pos (by simp : (i0 :: rest).length > 0)]
          simp only [hcat, exceptOk_bind]
          rfl
        · rw [List.length_zipWith, hlen1]
          rfl

theorem conditionOn_fresh_ok (v : VarSt) (ids : List ℕ) (state : ℕ)
    (hstate : state < v.chunk.numStates) (hnodup : ids.Nodup)
    (hfresh : ∀ st, v.unaries = some st →
      (∀ i ∈ ids, i ∉ st.idx) ∧ st.logU.length = 1) :
    ∃ w, conditionOn v ids state = .ok w := by
  rw [conditionOn, if_neg (by simp [hstate])]
  suffices h : ∀ (l : List ℕ) (acc : VarSt), acc.chunk = v.chunk → l.Nodup →
      (∀ st, acc.unaries = some st →
        (∀ i ∈ l, i ∉ st.idx) ∧ st.logU.length = 1) →
      ∃ w, (l.foldlM (fun acc i =>
        addUnaries acc [i] [oneHotRow v.chunk.numStates state]) acc) = .ok w by
    exact h ids v rfl hnodup hfresh
  intro l
  induction l with
  | nil => intro acc _ _ _; exact ⟨acc, rfl⟩
  | cons a t ih =>
      intro acc hacc hnd hfr
      obtain ⟨w, hw, hwchunk, st2, hst2, hl1, hidx⟩ :=
        addUnaries_fresh_ok acc [a] [oneHotRow v.chunk.numStates state]
          (by simp) (by simp [oneHotRow, hacc])
          (fun st hs => ⟨fun i hi => by
              have hia : i = a := List.mem_singleton.mp hi
              rw [hia]
              exact (hfr st hs).1 a (List.mem_cons_self a t),
            (hfr st hs).2⟩)
      rw [List.foldlM_cons, hw]
      rw [List.nodup_cons] at hnd
      refine ih w (hwchunk.trans hacc) hnd.2 ?_
      intro st hs
      rw [hst2] at hs
      obtain rfl : st2 = st := by injection hs
      refine ⟨fun i hi => ?_, hl1⟩
      rw [hidx]
      cases hau : acc.unaries with
      | none =>
          simp only [Option.elim_none, List.mem_singleton]
          rintro rfl
          exact hnd.1 hi
      | some st0 =>
          simp only [Option.elim_some, List.mem_append, List.mem_singleton]
          rintro (hin | rfl)
          · exact (hfr st0 hau).1 i (List.mem_cons_of_mem a hi) hin
          · exact hnd.1 hi

/-- C7 counterexample: on a finalized variable group (2 states, no
unaries yet), `add_unaries` and `condition_on` do NOT fail — they
succeed and mutate the evidence state — while `create_entries` on the
same finalized chunk does fail; and when they do fail on a finalized
group (duplicate unary on node 1: `log_dups_val` is indexed by the node
id, out of range), the error is an IndexError from the merge, not the
phase-violation error.  So not every evidence mutation on the public
interface fails with the finalisation error. -/
theorem add_unaries_after_finalize_counterexample :
    (createEntries (ChunkSt.mk 1 2 true) 1).isOk = false ∧
    (addUnaries (VarSt.mk (ChunkSt.mk 1 2 true) none) [0]
        [[(7 : ℝ)/10, 3/10]]).isOk = true ∧
    (addUnaries (VarSt.mk (ChunkSt.mk 1 2 true) none) [0]
        [[(7 : ℝ)/10, 3/10]]) ≠
      .ok (VarSt.mk (ChunkSt.mk 1 2 true) none) ∧
    (conditionOn (VarSt.mk (ChunkSt.mk 1 2 true) none) [0] 1).isOk = true ∧
    (addUnaries (VarSt.mk (ChunkSt.mk 2 2 true)
        (some (UnarySt.mk [1] [[[0], [0]]]))) [1]
        [[(7 : ℝ)/10, 3/10]] =
      .error "IndexError: index out of bounds for axis 0") := by
  refine ⟨rfl, rfl, ?_, rfl, rfl⟩
  intro hc
  rw [show addUnaries (VarSt.mk (ChunkSt.mk 1 2 true) none) [0]
      [[(7 : ℝ)/10, 3/10]] =
      .ok (VarSt.mk (ChunkSt.mk 1 2 true) (some ⟨[0],
        matLog [([[(7 : ℝ)/10, 3/10]].map normClipRow).transpose]⟩))
    from rfl] at hc
  injection hc with h
  have h2 := congrArg VarSt.unaries h
  simp at h2

/-- C7 amended: after finalisation the topology mutations on the public
interface fail with a fatal error (`create_entries` and
`set_num_states` assert `not self._finalized`), but the evidence
mutations `add_unaries` and `condition_on` perform no finalisation
check: on a finalized variable group whose stored unaries do not
overlap the given ids (in particular on a group with no unaries yet)
they succeed, mutating the unary state; when ids do overlap, the
duplicate-merge path mis-indexes and usually raises IndexError — either
way, not the phase-violation failure the claim requires. -/
theorem finalized_guard_behaviour (c : ChunkSt) (hc : c.finalized = true)
    (k s0 : ℕ) (hs : s0 ≠ 0)
    (v : VarSt) (_hv : v.chunk.finalized = true)
    (ids : List ℕ) (vals : List (List ℝ))
    (hlen : vals.length = ids.length)
    (hrows : (vals.all fun row => row.length == v.chunk.numStates) = true)
    (hfresh : ∀ st, v.unaries = some st →
      (∀ i ∈ ids, i ∉ st.idx) ∧ st.logU.length = 1)
    (hnodup : ids.Nodup)
    (state : ℕ) (hstate : state < v.chunk.numStates) :
    (∃ e, createEntries c k = .error e) ∧
    (∃ e, setNumStates c s0 = .error e) ∧
    (∃ w, addUnaries v ids vals = .ok w ∧ w.chunk = v.chunk) ∧
    (∃ w, conditionOn v ids state = .ok w) := by
  obtain ⟨w, hw, hwchunk, _⟩ := addUnaries_fresh_ok v ids vals hlen hrows hfresh
  refine ⟨⟨"Cannot make changes to a finalized MessageChunk", ?_⟩,
    ⟨"Cannot make changes to a finalized MessageChunk", ?_⟩,
    ⟨w, hw, hwchunk⟩,
    conditionOn_fresh_ok v ids state hstate hnodup hfresh⟩
  · rw [createEntries, if_pos hc]
  · rw [setNumStates, if_neg hs, if_pos hc]

theorem finalized_guard_behaviour_witness :
    (∃ e, createEntries (ChunkSt.mk 1 2 true) 1 = .error e) ∧
    (∃ e, setNumStates (ChunkSt.mk 1 2 true) 3 = .error e) ∧
    (∃ w, addUnaries (VarSt.mk (ChunkSt.mk 1 2 true) none) [0]
        [[(7 : ℝ)/10, 3/10]] = .ok w ∧
      w.chunk = (VarSt.mk (ChunkSt.mk 1 2 true) none).chunk) ∧
    (∃ w, conditionOn (VarSt.mk (ChunkSt.mk 1 2 true) none) [0] 1 = .ok w) :=
  finalized_guard_behaviour (ChunkSt.mk 1 2 true) rfl 1 3 (by norm_num)
    (VarSt.mk (ChunkSt.mk 1 2 true) none) rfl [0] [[(7 : ℝ)/10, 3/10]]
    rfl rfl (fun _ h => nomatch h) (by simp) 1 (by norm_num)
/-! ## VarNodes._do_compute_messages (var_nodes.py)

General path: `log_mess = log(msg_in)`, `all_log_sum = Σ_d log_mess`
plus the attached log-unaries (`__include_unary`; taken as 0 where no
unary is attached, modelled as a total `unary` tensor),
`f_msg = all_log_sum − log_mess`, then `exp(f_msg − logsumexp(f_msg))`
along the state axis.  Fast path `msg_in.shape[0] == 2`:
`f_msg[0] = msg_in[1]`, `f_msg[1] = msg_in[0]` — no log/exp and NO
unary. -/

/-- `VarNodes._do_compute_messages`, general branch: the log-sum-exp
normalised outgoing messages. -/
noncomputable def varOutGeneral {D S N : ℕ} (m : Fin D → Fin S → Fin N → ℝ)
    (unary : Fin S → Fin N → ℝ) : Fin D → Fin S → Fin N → ℝ :=
  fun d s n =>
    Real.exp ((((∑ d2, Real.log (m d2 s n)) + unary s n) - Real.log (m d s n)) -
      Real.log (∑ s2, Real.exp
        (((∑ d2, Real.log (m d2 s2 n)) + unary s2 n) - Real.log (m d s2 n))))

/-- `VarNodes._do_compute_messages`: the `D = 2` fast path returns the
swapped incoming slots verbatim; otherwise the general log-domain
formula runs. -/
noncomputable def varComputeMessages {D S N : ℕ}
    (m : Fin D → Fin S → Fin N → ℝ) (unary : Fin S → Fin N → ℝ) :
    Fin D → Fin S → Fin N → ℝ :=
  if hD : D = 2 then fun d s n => m ⟨1 - d.val, by omega⟩ s n
  else varOutGeneral m unary

/-- The spec's outgoing variable message (second definition, following
the spec's words): `T[s, n] = Σ_d log M[d, s, n] + log_unary[s, n]`,
outgoing at slot `d` is `exp(T − L[d])`, log-sum-exp normalised along
`s`. -/
noncomputable def varOutSpec {D S N : ℕ} (m : Fin D → Fin S → Fin N → ℝ)
    (unary : Fin S → Fin N → ℝ) : Fin D → Fin S → Fin N → ℝ :=
  fun d s n =>
    Real.exp ((((∑ d2, Real.log (m d2 s n)) + unary s n) - Real.log (m d s n)) -
      Real.log (∑ s2, Real.exp
        (((∑ d2, Real.log (m d2 s2 n)) + unary s2 n) - Real.log (m d s2 n))))

/-- C1 counterexample: with `D = 2` the fast path returns the swapped
incoming tensor verbatim, which differs from the log-sum-exp-normalised
formula as soon as the incoming columns are not state-normalised (and
also whenever a unary is attached): on the all-ones incoming tensor the
fast path yields 1 while the formula yields `exp(0 − log 2) = 1/2`. -/
theorem var_fast_path_counterexample :
    varComputeMessages (D := 2) (S := 2) (N := 1)
        (fun _ _ _ => 1) (fun _ _ => 0) 0 0 0 = 1 ∧
    varOutSpec (D := 2) (S := 2) (N := 1)
        (fun _ _ _ => 1) (fun _ _ => 0) 0 0 0 = 1/2 ∧
    (1 : ℝ) ≠ 1/2 := by
  refine ⟨?_, ?_, by norm_num⟩
  · rw [varComputeMessages, dif_pos rfl]
  · rw [varOutSpec]
    simp only [Real.log_one, Fin.sum_univ_two, add_zero, zero_add, sub_zero,
      zero_sub, Real.exp_zero]
    rw [show (1 : ℝ) + 1 = 2 by norm_num, Real.exp_neg,
      Real.exp_log (by norm_num : (0 : ℝ) < 2)]
    norm_num

/-- C1 amended: for `D ≠ 2` the computed outgoing message equals the
spec's log-sum-exp formula (with the attached log-unaries, 0 where none
is attached) exactly; for `D = 2` the fast path
(`out[0] = in[1], out[1] = in[0]`) equals that formula only when the
incoming entries are positive, every incoming column is
state-normalised, and no unary is attached — the fast path ignores
`log_unary` and performs no normalisation. -/
theorem var_messages_match_spec {D S N : ℕ}
    (m : Fin D → Fin S → Fin N → ℝ) (unary : Fin S → Fin N → ℝ)
    (h2 : D = 2 → (∀ d s n, 0 < m d s n) ∧ (∀ d n, ∑ s, m d s n = 1) ∧
      (∀ s n, unary s n = 0)) :
    varComputeMessages m unary = varOutSpec m unary := by
  by_cases hD : D = 2
  · obtain ⟨hpos, hnorm, hu⟩ := h2 hD
    subst hD
    funext d s n
    rw [varComputeMessages, dif_pos rfl]
    have hrw : ∀ (dd other : Fin 2),
        (∀ s2 : Fin S,
          (∑ d2 : Fin 2, Real.log (m d2 s2 n)) + unary s2 n -
            Real.log (m dd s2 n) = Real.log (m other s2 n)) →
        varOutSpec m unary dd s n = m other s n := by
      intro dd other hT
      simp only [varOutSpec]
      rw [hT s]
      have hin : ∀ s2 : Fin S, Real.exp
          ((∑ d2 : Fin 2, Real.log (m d2 s2 n)) + unary s2 n -
            Real.log (m dd s2 n)) = m other s2 n := fun s2 => by
        rw [hT s2, Real.exp_log (hpos other s2 n)]
      simp only [hin]
      rw [hnorm other n, Real.log_one, sub_zero,
        Real.exp_log (hpos other s n)]
    fin_cases d
    · exact (hrw 0 1 fun s2 => by rw [Fin.sum_univ_two, hu]; ring).symm
    · exact (hrw 1 0 fun s2 => by rw [Fin.sum_univ_two, hu]; ring).symm
  · rw [varComputeMessages, dif_neg hD]
    rfl

theorem var_messages_match_spec_witness :
    varComputeMessages (D := 2) (S := 2) (N := 1)
        (fun _ _ _ => (1 : ℝ)/2) (fun _ _ => 0) =
      varOutSpec (D := 2) (S := 2) (N := 1)
        (fun _ _ _ => (1 : ℝ)/2) (fun _ _ => 0) :=
  var_messages_match_spec (fun _ _ _ => (1 : ℝ)/2) (fun _ _ => 0)
    (fun _ => ⟨fun _ _ _ => by norm_num,
      fun d n => by rw [Fin.sum_univ_two]; norm_num,
      fun _ _ => rfl⟩)

end FactorFlow
